import Mathlib

/-!
Shallow embedding of ctags main/strlist.c, the resizable string-list
container, together with proofs of the specified properties.

Modelling conventions:
  * a vString value is a list of bytes/characters (`Str`); a `vString *`
    pointer slot is `Option Str` (`none` is the NULL pointer or an
    unused/uninitialised slot);
  * a `stringList *` argument of a C function is `Option stringList`
    (`none` is a NULL pointer); functions that execute `Assert` are given
    a `...C` wrapper returning `CResult`, where `CResult.assertFail` marks
    a fired fatal assertion;
  * the backing array `list` of the struct is `Option (List (Option Str))`
    (`none` is the NULL array pointer before the first allocation);
  * the compile-time CASE_INSENSITIVE_FILENAMES switch is an explicit
    boolean parameter `ci` of the operations that depend on it.
-/

set_option autoImplicit false

namespace StrList

/-- A byte string (the value held by a vString). -/
abbrev Str := List Char

/-- Result of a C function that may fire a fatal `Assert`. -/
inductive CResult (α : Type) where
  | ok : α → CResult α
  | assertFail : CResult α
deriving DecidableEq

/-- The `stringList` struct: `max` allocated slots, `count` occupied slots,
`list` the backing array (`none` = NULL before first allocation). -/
structure stringList where
  max : Nat
  count : Nat
  list : Option (List (Option Str))
deriving DecidableEq

/-- The slots of the backing array (empty when the array pointer is NULL). -/
def slots (sl : stringList) : List (Option Str) :=
  sl.list.getD []

/-- Reading `current->list [i]` (the unused-slot placeholder for an
index outside the allocation). -/
def readSlot (sl : stringList) (i : Nat) : Option Str :=
  (slots sl).getD i none

/-- The occupied prefix `list[0] .. list[count-1]` of the container. -/
def items (sl : stringList) : List (Option Str) :=
  (slots sl).take sl.count

/-- Well-formedness of a reachable container state: `count ≤ max` and the
backing array has exactly `max` slots (so a NULL array forces `max = 0`,
and with `count ≤ max` also `count = 0`, matching the asserts in the C). -/
def wf (sl : stringList) : Prop :=
  sl.count ≤ sl.max ∧ (slots sl).length = sl.max

instance : DecidablePred wf := fun sl => by
  unfold wf; exact inferInstance

/-- stringListNew: empty container, no backing storage. -/
def stringListNew : stringList :=
  { max := 0, count := 0, list := none }

/-- The allocation step at the head of stringListAdd: first allocation of
10 slots when `list == NULL`, realloc by the fixed increment 10 when
`count == max`, otherwise unchanged.  Fresh slots are uninitialised,
modelled as `none` placeholders. -/
def ensureRoom (current : stringList) : stringList :=
  if current.list = none then
    { current with count := 0, max := 10, list := some (List.replicate 10 none) }
  else if current.count = current.max then
    { current with
      max := current.max + 10,
      list := some (current.list.getD [] ++ List.replicate 10 none) }
  else current

/-- stringListAdd: grow if needed, then `list [count++] = string`. -/
def stringListAdd (current : stringList) (string : Option Str) : stringList :=
  let c := ensureRoom current
  { c with list := some ((slots c).set c.count string), count := c.count + 1 }

/-- stringListRemoveLast (state change): `--count; list [count] = NULL`. -/
def stringListRemoveLast (current : stringList) : stringList :=
  { current with
    count := current.count - 1,
    list := current.list.map (fun l => l.set (current.count - 1) none) }

/-- stringListRemoveLast with its asserts (`current != NULL`, `count > 0`). -/
def stringListRemoveLastC (current : Option stringList) : CResult stringList :=
  match current with
  | none => CResult.assertFail
  | some sl =>
    if 0 < sl.count then CResult.ok (stringListRemoveLast sl)
    else CResult.assertFail

/-- stringListCount with its assert (`current != NULL`). -/
def stringListCountC (current : Option stringList) : CResult Nat :=
  match current with
  | none => CResult.assertFail
  | some sl => CResult.ok sl.count

/-- stringListItem: only `Assert (current != NULL)` is executed; the slot
is read unconditionally, with no bounds check on the index. -/
def stringListItemC (current : Option stringList) (indx : Nat) :
    CResult (Option Str) :=
  match current with
  | none => CResult.assertFail
  | some sl => CResult.ok (readSlot sl indx)

/-- Writing one slot of the backing array (`list [i] = v`). -/
def setSlot (sl : stringList) (i : Nat) (v : Option Str) : stringList :=
  { sl with list := sl.list.map (fun l => l.set i v) }

/-- stringListClear: `list[i] = NULL` for each `i < count`, then `count = 0`. -/
def stringListClear (current : stringList) : stringList :=
  { current with
    count := 0,
    list := current.list.map (fun l =>
      (List.range current.count).foldl (fun a i => a.set i none) l) }

/-- stringListDelete: clears and frees; the pointer must not be used again,
so the result of deletion is the NULL pointer.  Safe on NULL. -/
def stringListDelete (_current : Option stringList) : Option stringList :=
  none

/-- stringListCombine (state change on the destination): the loop
`for i < from->count: stringListAdd (current, from->list[i])` appends every
occupied slot of the source in order; the source is then deleted. -/
def stringListCombine (current source : stringList) : stringList :=
  (items source).foldl stringListAdd current

/-- stringListCombine with its asserts (`current != NULL`, `from != NULL`);
the consumed source is destroyed by stringListDelete. -/
def stringListCombineC (current source : Option stringList) :
    CResult stringList :=
  match current, source with
  | some cur, some src => CResult.ok (stringListCombine cur src)
  | _, _ => CResult.assertFail

/-- Folding a whole sequence of stringListAdd calls. -/
def addAll (sl : stringList) (xs : List (Option Str)) : stringList :=
  xs.foldl stringListAdd sl

/-- The combine loop made fuel-explicit, to study its termination: one
iteration adds `from->list[i]` to the (distinct) destination, NULLs the
source slot and increments `i`; the loop exits when `i ≥ from->count`. -/
def combineLoop : Nat → Nat → stringList → stringList → Option (stringList × stringList)
  | 0, _, _, _ => none
  | fuel + 1, i, current, source =>
    if i < source.count then
      combineLoop fuel (i + 1) (stringListAdd current (readSlot source i))
        (setSlot source i none)
    else some (current, source)

/-- The combine loop when the same container is passed as both destination
and source: each iteration's stringListAdd now also grows `from->count`. -/
def combineAliasedLoop : Nat → Nat → stringList → Option stringList
  | 0, _, _ => none
  | fuel + 1, i, sl =>
    if i < sl.count then
      combineAliasedLoop fuel (i + 1)
        (setSlot (stringListAdd sl (readSlot sl i)) i none)
    else some sl

/-- ASCII tolower, as used by strcasecmp in the C locale. -/
def asciiLower (c : Char) : Char :=
  if 'A' ≤ c ∧ c ≤ 'Z' then Char.ofNat (c.toNat + 32) else c

/-- compareString: `strcmp (string, vStringValue (itm)) == 0`.  An occupied
slot always holds a string in reachable states; a NULL slot never compares
equal. -/
def compareString (string : Str) (itm : Option Str) : Bool :=
  match itm with
  | some v => string == v
  | none => false

/-- compareStringInsensitive: `strcasecmp (...) == 0` (ASCII case folding). -/
def compareStringInsensitive (string : Str) (itm : Option Str) : Bool :=
  match itm with
  | some v => string.map asciiLower == v.map asciiLower
  | none => false

/-- The scan loop of stringListIndex: first index at which the comparator
accepts the slot, else -1. -/
def indexLoop (string : Str) (test : Str → Option Str → Bool) :
    List (Option Str) → Nat → Int
  | [], _ => -1
  | s :: rest, i => if test string s then (i : Int) else indexLoop string test rest (i + 1)

/-- stringListIndex: linear scan of the occupied slots from index 0,
returning the first matching index or -1. -/
def stringListIndex (current : stringList) (string : Str)
    (test : Str → Option Str → Bool) : Int :=
  indexLoop string test (items current) 0

/-- stringListHas: exact byte-wise membership. -/
def stringListHas (current : stringList) (string : Str) : Bool :=
  stringListIndex current string compareString != -1

/-- stringListHasInsensitive: case-insensitive membership. -/
def stringListHasInsensitive (current : stringList) (string : Str) : Bool :=
  stringListIndex current string compareStringInsensitive != -1

/-- The comparator selected by the CASE_INSENSITIVE_FILENAMES switch `ci`. -/
def extensionComparator (ci : Bool) : Str → Option Str → Bool :=
  if ci then compareStringInsensitive else compareString

/-- stringListExtensionMatched: membership under the platform case policy. -/
def stringListExtensionMatched (ci : Bool) (current : stringList)
    (extension : Str) : Bool :=
  if ci then stringListHasInsensitive current extension
  else stringListHas current extension

/-- The source indexes read by the memmove in stringListRemoveExtension:
it copies `count - where` pointers starting at slot `where + 1`, so it
reads slots `where+1, ..., count`. -/
def memmoveShiftSrc (w n : Nat) : List Nat :=
  (List.range (n - w)).map (fun k => w + k + 1)

/-- stringListRemoveExtension: find the first match under the platform
case policy; if found, memmove the following pointers down one slot
(reading each source slot from the pre-call array, as memmove does),
NULL the slot at `count - 1`, decrement `count`, and report success. -/
def stringListRemoveExtension (ci : Bool) (current : stringList)
    (extension : Str) : Bool × stringList :=
  let w := stringListIndex current extension (extensionComparator ci)
  if w = -1 then (false, current)
  else
    let n := current.count
    let wn := w.toNat
    let arr := slots current
    let arr2 := (memmoveShiftSrc wn n).foldl
      (fun a src => a.set (src - 1) (arr.getD src none)) arr
    let arr3 := arr2.set (n - 1) none
    (true, { current with count := n - 1, list := some arr3 })

/-- Character class of C isspace in the C locale. -/
def isSpaceC (c : Char) : Bool :=
  c = ' ' || c = '\t' || c = '\n' || c = '\x0b' || c = '\x0c' || c = '\r'

/-- Modelled from the spec: the owned mutable string collaborator
(vstring.h, not under src/) supports in-place removal of trailing
whitespace; `vStringStripTrailing` drops every trailing whitespace
character. -/
def vStringStripTrailing (s : Str) : Str :=
  (s.reverse.dropWhile isSpaceC).reverse

/-- The per-line body of the read loop in stringListNewFromFile: strip
trailing whitespace, then add the line when non-empty, else discard it. -/
def fromFileStep (result : stringList) (line : Str) : stringList :=
  if 0 < (vStringStripTrailing line).length
  then stringListAdd result (some (vStringStripTrailing line)) else result

/-- The contribution of one raw line to the final container: the stripped
line if non-empty, nothing otherwise. -/
def keepLine (line : Str) : Option (Option Str) :=
  if 0 < (vStringStripTrailing line).length
  then some (some (vStringStripTrailing line)) else none

/-- Modelled from the spec: the line reader / MIO stream collaborators
(not under src/) deliver the file as its successive raw lines, and the
open step either fails (`none`) or yields those lines.  With that model,
stringListNewFromFile returns no container exactly when the open fails and
otherwise appends each line that is non-empty after trailing-whitespace
stripping, in file order. -/
def stringListNewFromFile (file : Option (List Str)) : Option stringList :=
  match file with
  | none => none
  | some lines => some (lines.foldl fromFileStep stringListNew)

/-! ### Generic list lemmas -/

theorem take_set_of_le {α : Type} (l : List α) (n i : Nat) (x : α) (h : n ≤ i) :
    (l.set i x).take n = l.take n := by
  apply List.ext_getElem?
  intro m
  rw [List.getElem?_take, List.getElem?_take]
  by_cases hm : m < n
  · simp only [hm, if_true]
    exact List.getElem?_set_ne (by omega)
  · simp [hm]

theorem take_succ_set {α : Type} (l : List α) (i : Nat) (x : α) (h : i < l.length) :
    (l.set i x).take (i + 1) = l.take i ++ [x] := by
  apply List.ext_getElem?
  intro m
  rw [List.getElem?_take, List.getElem?_append]
  have hlt : (List.take i l).length = i := by
    rw [List.length_take]; omega
  by_cases hm : m < i
  · have : m < i + 1 := by omega
    simp only [this, if_true, hlt, hm, if_true, List.getElem?_take]
    exact List.getElem?_set_ne (by omega)
  · by_cases hme : m = i
    · subst hme
      simp only [Nat.lt_succ_self, if_true, hlt, hm, if_false, Nat.sub_self]
      rw [List.getElem?_set_self h]
      rfl
    · have h1 : ¬ m < i + 1 := by omega
      have h2 : ¬ m - i < 1 := by omega
      simp only [h1, if_false, hlt, hm, if_false]
      rw [eq_comm, List.getElem?_eq_none]
      simp; omega

theorem length_foldl_set {α : Type} (f : Nat → Nat) (g : Nat → α) :
    ∀ (idxs : List Nat) (l : List α),
      (idxs.foldl (fun a j => a.set (f j) (g j)) l).length = l.length := by
  intro idxs
  induction idxs with
  | nil => intro l; rfl
  | cons j rest ih =>
    intro l
    rw [List.foldl_cons, ih, List.length_set]

/-! ### Basic facts about the container state -/

theorem wf_stringListNew : wf stringListNew := by
  constructor <;> rfl

theorem slots_length_mapSet (sl : stringList) (i : Nat) (v : Option Str) :
    ((sl.list.map (fun l => l.set i v)).getD []).length = (slots sl).length := by
  rcases h : sl.list with _ | arr <;> simp [slots, h]

theorem setSlot_count (sl : stringList) (i : Nat) (v : Option Str) :
    (setSlot sl i v).count = sl.count := rfl

theorem wf_setSlot (sl : stringList) (i : Nat) (v : Option Str) (h : wf sl) :
    wf (setSlot sl i v) := by
  obtain ⟨h1, h2⟩ := h
  exact ⟨h1, by rw [show slots (setSlot sl i v)
    = (sl.list.map (fun l => l.set i v)).getD [] from rfl,
    slots_length_mapSet]; exact h2⟩

theorem readSlot_of_lt_count (sl : stringList) (i : Nat) (h : i < sl.count) :
    readSlot sl i = (items sl).getD i none := by
  unfold readSlot items
  rw [List.getD_eq_getElem?_getD, List.getD_eq_getElem?_getD, List.getElem?_take]
  simp [h]

/-! ### The growth step and stringListAdd -/

theorem ensureRoom_spec (sl : stringList) (h : wf sl) :
    (ensureRoom sl).count = sl.count ∧
    (ensureRoom sl).count < (slots (ensureRoom sl)).length ∧
    (slots (ensureRoom sl)).length = (ensureRoom sl).max ∧
    (ensureRoom sl).max = (if sl.count = sl.max then sl.max + 10 else sl.max) ∧
    items (ensureRoom sl) = items sl := by
  obtain ⟨hcm, hlen⟩ := h
  unfold ensureRoom
  rcases hl : sl.list with _ | arr
  · have hm0 : sl.max = 0 := by
      rw [← hlen]; simp [slots, hl]
    have hc0 : sl.count = 0 := by omega
    simp [hl, slots, items, hm0, hc0]
  · have hlen' : arr.length = sl.max := by
      rw [← hlen]; simp [slots, hl]
    rw [if_neg (Option.some_ne_none arr)]
    by_cases hcmax : sl.count = sl.max
    · rw [if_pos hcmax]
      refine ⟨rfl, ?_, ?_, ?_, ?_⟩
      · simp [slots]; omega
      · simp [slots, hlen']
      · simp [hcmax]
      · simp only [items, slots, hl, Option.getD_some]
        rw [List.take_append_of_le_length (by omega)]
    · rw [if_neg hcmax]
      refine ⟨rfl, ?_, ?_, ?_, ?_⟩
      · simp [slots, hl, hlen']; omega
      · exact hlen
      · simp [hcmax]
      · rfl

theorem stringListAdd_count (sl : stringList) (x : Option Str) (h : wf sl) :
    (stringListAdd sl x).count = sl.count + 1 := by
  obtain ⟨hc, _, _, _, _⟩ := ensureRoom_spec sl h
  unfold stringListAdd
  simp [hc]

theorem stringListAdd_wf (sl : stringList) (x : Option Str) (h : wf sl) :
    wf (stringListAdd sl x) := by
  obtain ⟨hc, hlt, hlen, _, _⟩ := ensureRoom_spec sl h
  unfold stringListAdd wf
  constructor
  · show (ensureRoom sl).count + 1 ≤ (ensureRoom sl).max
    omega
  · show ((slots (ensureRoom sl)).set (ensureRoom sl).count x).length
      = (ensureRoom sl).max
    rw [List.length_set]; exact hlen

theorem stringListAdd_items (sl : stringList) (x : Option Str) (h : wf sl) :
    items (stringListAdd sl x) = items sl ++ [x] := by
  obtain ⟨hc, hlt, hlen, _, hitems⟩ := ensureRoom_spec sl h
  unfold stringListAdd
  show ((slots (ensureRoom sl)).set (ensureRoom sl).count x).take
    ((ensureRoom sl).count + 1) = items sl ++ [x]
  rw [take_succ_set _ _ _ hlt, ← hitems]
  rfl

theorem stringListAdd_max (sl : stringList) (x : Option Str) (h : wf sl) :
    (stringListAdd sl x).max =
      (if sl.count = sl.max then sl.max + 10 else sl.max) := by
  obtain ⟨_, _, _, hmax, _⟩ := ensureRoom_spec sl h
  exact hmax

theorem addAll_spec (xs : List (Option Str)) :
    ∀ (sl : stringList), wf sl →
      wf (addAll sl xs) ∧
      (addAll sl xs).count = sl.count + xs.length ∧
      items (addAll sl xs) = items sl ++ xs := by
  induction xs with
  | nil => intro sl h; exact ⟨h, by simp [addAll], by simp [addAll]⟩
  | cons x rest ih =>
    intro sl h
    have hstep : addAll sl (x :: rest) = addAll (stringListAdd sl x) rest := rfl
    obtain ⟨w1, w2, w3⟩ := ih (stringListAdd sl x) (stringListAdd_wf sl x h)
    refine ⟨by rw [hstep]; exact w1, ?_, ?_⟩
    · rw [hstep, w2, stringListAdd_count sl x h]
      simp; omega
    · rw [hstep, w3, stringListAdd_items sl x h]
      simp

/-! ### stringListRemoveLast and stringListClear -/

theorem stringListRemoveLast_count (sl : stringList) :
    (stringListRemoveLast sl).count = sl.count - 1 := rfl

theorem stringListRemoveLast_max (sl : stringList) :
    (stringListRemoveLast sl).max = sl.max := rfl

theorem slots_stringListRemoveLast (sl : stringList) :
    slots (stringListRemoveLast sl) =
      (slots sl).set (sl.count - 1) none := by
  unfold stringListRemoveLast slots
  rcases sl.list with _ | arr <;> simp

theorem stringListRemoveLast_wf (sl : stringList) (h : wf sl) :
    wf (stringListRemoveLast sl) := by
  obtain ⟨h1, h2⟩ := h
  refine ⟨?_, ?_⟩
  · rw [stringListRemoveLast_count, stringListRemoveLast_max]; omega
  · rw [slots_stringListRemoveLast, List.length_set,
      stringListRemoveLast_max]; exact h2

theorem stringListClear_count (sl : stringList) :
    (stringListClear sl).count = 0 := rfl

theorem stringListClear_max (sl : stringList) :
    (stringListClear sl).max = sl.max := rfl

theorem stringListClear_wf (sl : stringList) (h : wf sl) :
    wf (stringListClear sl) := by
  obtain ⟨h1, h2⟩ := h
  refine ⟨by rw [stringListClear_count]; omega, ?_⟩
  show ((sl.list.map _).getD []).length = sl.max
  rcases hl : sl.list with _ | arr
  · have hm : sl.max = 0 := by rw [← h2]; simp [slots, hl]
    simp [hm]
  · simp only [Option.map_some', Option.getD_some]
    rw [length_foldl_set (fun i => i) (fun _ => none) (List.range sl.count) arr]
    rw [← h2]; simp [slots, hl]

/-! ### The linear-search primitive -/

theorem indexLoop_eq_findIdx (s : Str) (test : Str → Option Str → Bool) :
    ∀ (l : List (Option Str)) (i : Nat),
      indexLoop s test l i =
        (match List.findIdx? (test s) l i with
         | some j => (j : Int)
         | none => -1) := by
  intro l
  induction l with
  | nil => intro i; simp [indexLoop, List.findIdx?_nil]
  | cons a rest ih =>
    intro i
    rw [indexLoop, List.findIdx?_cons]
    by_cases ha : test s a = true
    · simp [ha]
    · simp only [ha, if_false, Bool.false_eq_true]
      rw [ih (i + 1)]

theorem findIdx_some_bound {p : Option Str → Bool} :
    ∀ (l : List (Option Str)) (i j : Nat),
      List.findIdx? p l i = some j → i ≤ j ∧ j - i < l.length := by
  intro l
  induction l with
  | nil => intro i j h; rw [List.findIdx?_nil] at h; cases h
  | cons a rest ih =>
    intro i j h
    rw [List.findIdx?_cons] at h
    by_cases ha : p a = true
    · rw [if_pos ha] at h
      cases h
      simp
    · rw [if_neg ha] at h
      obtain ⟨h1, h2⟩ := ih (i + 1) j h
      refine ⟨by omega, ?_⟩
      simp only [List.length_cons]
      omega

theorem findIdx_some_exists {p : Option Str → Bool} :
    ∀ (l : List (Option Str)) (i j : Nat),
      List.findIdx? p l i = some j → ∃ a ∈ l, p a = true := by
  intro l
  induction l with
  | nil => intro i j h; rw [List.findIdx?_nil] at h; cases h
  | cons a rest ih =>
    intro i j h
    rw [List.findIdx?_cons] at h
    by_cases ha : p a = true
    · exact ⟨a, by simp, ha⟩
    · rw [if_neg ha] at h
      obtain ⟨b, hb1, hb2⟩ := ih (i + 1) j h
      exact ⟨b, by simp [hb1], hb2⟩

theorem findIdx_none_of_all {p : Option Str → Bool} :
    ∀ (l : List (Option Str)) (i : Nat),
      (∀ a ∈ l, p a = false) → List.findIdx? p l i = none := by
  intro l
  induction l with
  | nil => intro i _; rw [List.findIdx?_nil]
  | cons a rest ih =>
    intro i h
    rw [List.findIdx?_cons]
    have ha := h a (by simp)
    rw [if_neg (by simp [ha])]
    exact ih (i + 1) (fun b hb => h b (by simp [hb]))

theorem stringListIndex_eq (sl : stringList) (s : Str)
    (test : Str → Option Str → Bool) :
    stringListIndex sl s test =
      (match List.findIdx? (test s) (items sl) 0 with
       | some j => (j : Int)
       | none => -1) := by
  unfold stringListIndex
  exact indexLoop_eq_findIdx s test (items sl) 0

/-! ### The memmove shift in stringListRemoveExtension -/

theorem shiftFold_length (arr a0 : List (Option Str)) (w n : Nat) :
    ((memmoveShiftSrc w n).foldl
      (fun a src => a.set (src - 1) (arr.getD src none)) a0).length
    = a0.length := by
  unfold memmoveShiftSrc
  exact length_foldl_set (fun src => src - 1) (fun src => arr.getD src none) _ a0

theorem shiftFold_getElem (arr : List (Option Str)) (w : Nat) :
    ∀ (m i : Nat), i < arr.length →
      (((List.range m).map (fun k => w + k + 1)).foldl
        (fun a src => a.set (src - 1) (arr.getD src none)) arr)[i]? =
      (if w ≤ i ∧ i < w + m then some (arr.getD (i + 1) none) else arr[i]?) := by
  intro m
  induction m with
  | zero =>
    intro i hi
    simp only [List.range_zero, List.map_nil, List.foldl_nil]
    rw [if_neg (by omega)]
  | succ m ih =>
    intro i hi
    rw [List.range_succ, List.map_append, List.foldl_append]
    simp only [List.map_cons, List.map_nil, List.foldl_cons, List.foldl_nil]
    have hwm : w + m + 1 - 1 = w + m := by omega
    rw [hwm]
    have hflen : (((List.range m).map (fun k => w + k + 1)).foldl
        (fun a src => a.set (src - 1) (arr.getD src none)) arr).length
        = arr.length := by
      have := shiftFold_length arr arr w (w + m)
      unfold memmoveShiftSrc at this
      have heq : (w + m) - w = m := by omega
      rw [heq] at this
      exact this
    by_cases hie : i = w + m
    · subst hie
      rw [List.getElem?_set_self (by rw [hflen]; exact hi)]
      rw [if_pos (by omega)]
    · rw [List.getElem?_set_ne (by omega)]
      rw [ih i hi]
      by_cases h1 : w ≤ i ∧ i < w + m
      · rw [if_pos h1, if_pos (by omega)]
      · rw [if_neg h1, if_neg (by omega)]

theorem removeExtension_not_found (ci : Bool) (sl : stringList) (ext : Str)
    (hnone : List.findIdx? (extensionComparator ci ext) (items sl) 0 = none) :
    stringListRemoveExtension ci sl ext = (false, sl) := by
  have hidx : stringListIndex sl ext (extensionComparator ci) = -1 := by
    rw [stringListIndex_eq, hnone]
  unfold stringListRemoveExtension
  rw [hidx]
  simp

theorem removeExtension_found (ci : Bool) (sl : stringList) (ext : Str) (w : Nat)
    (h : wf sl)
    (hw : List.findIdx? (extensionComparator ci ext) (items sl) 0 = some w) :
    (stringListRemoveExtension ci sl ext).1 = true ∧
    ((stringListRemoveExtension ci sl ext).2).count = sl.count - 1 ∧
    ((stringListRemoveExtension ci sl ext).2).max = sl.max ∧
    wf (stringListRemoveExtension ci sl ext).2 ∧
    items (stringListRemoveExtension ci sl ext).2 = (items sl).eraseIdx w ∧
    0 < sl.count ∧ w < sl.count := by
  obtain ⟨hcm, hlen⟩ := h
  have hwlen : w < (items sl).length := by
    have hb := (findIdx_some_bound (items sl) 0 w hw).2
    omega
  have hitems_len : (items sl).length = sl.count := by
    unfold items
    rw [List.length_take]
    omega
  have hwc : w < sl.count := by omega
  have hnal : sl.count ≤ (slots sl).length := by omega
  have hidx : stringListIndex sl ext (extensionComparator ci) = ((w : Nat) : Int) := by
    rw [stringListIndex_eq, hw]
  have hres : stringListRemoveExtension ci sl ext = (true,
      { sl with
        count := sl.count - 1,
        list := some (((memmoveShiftSrc w sl.count).foldl
          (fun a src => a.set (src - 1) ((slots sl).getD src none)) (slots sl)).set
          (sl.count - 1) none) }) := by
    unfold stringListRemoveExtension
    rw [hidx]
    rw [if_neg (by omega)]
    rw [Int.toNat_natCast]
  rw [hres]
  refine ⟨rfl, rfl, rfl, ⟨?_, ?_⟩, ?_, by omega, hwc⟩
  · show sl.count - 1 ≤ sl.max
    omega
  · show ((((memmoveShiftSrc w sl.count).foldl
        (fun a src => a.set (src - 1) ((slots sl).getD src none)) (slots sl)).set
        (sl.count - 1) none).length) = sl.max
    rw [List.length_set, shiftFold_length]
    exact hlen
  · show (((memmoveShiftSrc w sl.count).foldl
        (fun a src => a.set (src - 1) ((slots sl).getD src none)) (slots sl)).set
        (sl.count - 1) none).take (sl.count - 1) = (items sl).eraseIdx w
    apply List.ext_getElem?
    intro i
    have hA2len : ((memmoveShiftSrc w sl.count).foldl
        (fun a src => a.set (src - 1) ((slots sl).getD src none)) (slots sl)).length
        = (slots sl).length := shiftFold_length (slots sl) (slots sl) w sl.count
    have hA2get : ∀ j, j < (slots sl).length →
        ((memmoveShiftSrc w sl.count).foldl
          (fun a src => a.set (src - 1) ((slots sl).getD src none)) (slots sl))[j]? =
        (if w ≤ j ∧ j < w + (sl.count - w) then some ((slots sl).getD (j + 1) none)
         else (slots sl)[j]?) := by
      intro j hj
      exact shiftFold_getElem (slots sl) w (sl.count - w) j hj
    rw [List.getElem?_take]
    rw [List.eraseIdx_eq_take_drop_succ, List.getElem?_append]
    have htt : (items sl).take w = (slots sl).take w := by
      unfold items
      rw [List.take_take]
      congr 1
      omega
    have httlen : ((items sl).take w).length = w := by
      rw [List.length_take]
      omega
    by_cases hiw : i < w
    · rw [if_pos (by omega : i < sl.count - 1)]
      rw [List.getElem?_set_ne (by omega)]
      rw [hA2get i (by omega)]
      rw [if_neg (by omega)]
      rw [if_pos (by omega : i < ((items sl).take w).length)]
      rw [htt, List.getElem?_take, if_pos hiw]
    · rw [if_neg (by rw [httlen]; omega : ¬ i < ((items sl).take w).length)]
      rw [httlen]
      have hdrop : ((items sl).drop (w + 1))[i - w]? = (items sl)[(w + 1) + (i - w)]? :=
        List.getElem?_drop (items sl) (w + 1) (i - w)
      rw [hdrop]
      have hidx2 : (w + 1) + (i - w) = i + 1 := by omega
      rw [hidx2]
      by_cases hin : i < sl.count - 1
      · rw [if_pos hin]
        rw [List.getElem?_set_ne (by omega)]
        rw [hA2get i (by omega)]
        rw [if_pos (by omega)]
        unfold items
        rw [List.getElem?_take, if_pos (by omega : i + 1 < sl.count)]
        rw [List.getD_eq_getElem?_getD,
          List.getElem?_eq_getElem (by omega : i + 1 < (slots sl).length)]
        rfl
      · rw [if_neg hin]
        rw [eq_comm, List.getElem?_eq_none]
        rw [hitems_len]
        omega


/-! ### Loading from a file -/

theorem fromFileFold_spec :
    ∀ (lines : List Str) (sl : stringList), wf sl →
      wf (lines.foldl fromFileStep sl) ∧
      items (lines.foldl fromFileStep sl) =
        items sl ++ lines.filterMap keepLine := by
  intro lines
  induction lines with
  | nil => intro sl h; exact ⟨h, by simp⟩
  | cons line rest ih =>
    intro sl h
    rw [List.foldl_cons]
    by_cases hk : 0 < (vStringStripTrailing line).length
    · have hstep : fromFileStep sl line
          = stringListAdd sl (some (vStringStripTrailing line)) := by
        unfold fromFileStep
        rw [if_pos hk]
      have hkeep : keepLine line = some (some (vStringStripTrailing line)) := by
        unfold keepLine
        rw [if_pos hk]
      rw [hstep, List.filterMap_cons_some hkeep]
      obtain ⟨w1, w2⟩ := ih (stringListAdd sl (some (vStringStripTrailing line)))
        (stringListAdd_wf sl _ h)
      refine ⟨w1, ?_⟩
      rw [w2, stringListAdd_items sl _ h]
      simp
    · have hstep : fromFileStep sl line = sl := by
        unfold fromFileStep
        rw [if_neg hk]
      have hkeep : keepLine line = none := by
        unfold keepLine
        rw [if_neg hk]
      rw [hstep, List.filterMap_cons_none hkeep]
      exact ih sl h

/-! ### The combine loops -/

theorem combineLoop_isSome :
    ∀ (m i : Nat) (current source : stringList),
      source.count ≤ i + m →
      (combineLoop (m + 1) i current source).isSome = true := by
  intro m
  induction m with
  | zero =>
    intro i current source h
    rw [combineLoop]
    rw [if_neg (by omega)]
    rfl
  | succ m ih =>
    intro i current source h
    rw [combineLoop]
    by_cases hc : i < source.count
    · rw [if_pos hc]
      apply ih (i + 1)
      rw [setSlot_count]
      omega
    · rw [if_neg hc]
      rfl

theorem combineAliasedLoop_none :
    ∀ (fuel i : Nat) (sl : stringList),
      wf sl → i < sl.count → combineAliasedLoop fuel i sl = none := by
  intro fuel
  induction fuel with
  | zero => intro i sl _ _; rfl
  | succ fuel ih =>
    intro i sl h1 h2
    rw [combineAliasedLoop]
    rw [if_pos h2]
    apply ih
    · exact wf_setSlot _ _ _ (stringListAdd_wf sl _ h1)
    · rw [setSlot_count, stringListAdd_count sl _ h1]
      omega

/-! ### Small unfolding helpers for the C wrappers -/

theorem stringListRemoveLastC_some (sl : stringList) :
    stringListRemoveLastC (some sl) =
      (if 0 < sl.count then CResult.ok (stringListRemoveLast sl)
       else CResult.assertFail) := rfl

/-! ### The claims -/

/-- Claim C1: starting from a new container, after any sequence of n adds
the count is n, and item(i) returns exactly the i-th added value for every
i < n, in add order. -/
theorem stringListAdd_count_item_spec (xs : List (Option Str)) (i : Nat) :
    (addAll stringListNew xs).count = xs.length ∧
    (i < xs.length →
      stringListItemC (some (addAll stringListNew xs)) i =
        CResult.ok (xs.getD i none)) := by
  obtain ⟨hwf, hcount, hitems⟩ := addAll_spec xs stringListNew wf_stringListNew
  have hc : (addAll stringListNew xs).count = xs.length := by
    rw [hcount]
    simp [stringListNew]
  refine ⟨hc, fun hi => ?_⟩
  show CResult.ok (readSlot (addAll stringListNew xs) i) =
    CResult.ok (xs.getD i none)
  rw [readSlot_of_lt_count _ _ (by omega), hitems,
    show items stringListNew = ([] : List (Option Str)) from rfl,
    List.nil_append]

/-- Witness for C1 at a concrete two-element add sequence. -/
theorem stringListAdd_count_item_spec_witness :
    1 < ([some (['x'] : Str), some ['y']] : List (Option Str)).length ∧
    (addAll stringListNew [some ['x'], some ['y']]).count = 2 ∧
    stringListItemC (some (addAll stringListNew [some ['x'], some ['y']])) 1 =
      CResult.ok (some ['y']) := by
  refine ⟨by decide, ?_, ?_⟩
  · exact (stringListAdd_count_item_spec [some ['x'], some ['y']] 1).1
  · exact (stringListAdd_count_item_spec [some ['x'], some ['y']] 1).2 (by decide)

/-- Claim C2: removeExtension returns true and shrinks count by one iff
some occupied slot compares equal to the extension under the platform case
policy; the first matching element is removed (the occupied sequence
becomes the old one with the first matching index erased, preserving the
order of the rest); on no match it returns false with the container
unchanged. -/
theorem stringListRemoveExtension_spec (ci : Bool) (sl : stringList)
    (ext : Str) (h : wf sl) :
    ((stringListRemoveExtension ci sl ext).1 = true ↔
      ∃ itm ∈ items sl, extensionComparator ci ext itm = true) ∧
    ((stringListRemoveExtension ci sl ext).1 = false →
      stringListRemoveExtension ci sl ext = (false, sl)) ∧
    (∀ w, List.findIdx? (extensionComparator ci ext) (items sl) = some w →
      (stringListRemoveExtension ci sl ext).1 = true ∧
      ((stringListRemoveExtension ci sl ext).2).count + 1 = sl.count ∧
      items (stringListRemoveExtension ci sl ext).2 = (items sl).eraseIdx w) := by
  cases hfi : List.findIdx? (extensionComparator ci ext) (items sl) with
  | none =>
    have hres := removeExtension_not_found ci sl ext hfi
    refine ⟨?_, fun _ => hres, ?_⟩
    · rw [hres]
      constructor
      · intro hc
        simp at hc
      · rintro ⟨itm, hmem, hcmp⟩
        have hfalse := List.findIdx?_eq_none_iff.mp hfi itm hmem
        rw [hcmp] at hfalse
        simp at hfalse
    · intro w hw
      cases hw
  | some w0 =>
    obtain ⟨f1, f2, f3, f4, f5, f6, f7⟩ := removeExtension_found ci sl ext w0 h hfi
    refine ⟨?_, ?_, ?_⟩
    · exact ⟨fun _ => findIdx_some_exists (items sl) 0 w0 hfi, fun _ => f1⟩
    · intro hfalse
      rw [f1] at hfalse
      simp at hfalse
    · intro w hw
      injection hw with hw
      subst hw
      exact ⟨f1, by omega, f5⟩

/-- Witness for C2: removing "a" from the container ["a", "b"]. -/
theorem stringListRemoveExtension_spec_witness :
    wf (addAll stringListNew [some ['a'], some ['b']]) ∧
    items (stringListRemoveExtension false
      (addAll stringListNew [some ['a'], some ['b']]) ['a']).2 = [some ['b']] := by
  refine ⟨by decide, ?_⟩
  have h := (stringListRemoveExtension_spec false
    (addAll stringListNew [some ['a'], some ['b']]) ['a'] (by decide)).2.2 0 (by decide)
  rw [h.2.2]
  decide

/-- Claim C3 (amended): stringListItem performs no bounds assertion at
all; for an index at or beyond count it still returns the raw slot
content (the unused-slot placeholder) rather than failing, and the only
fatal assertion it can fire is the NULL-container check. -/
theorem stringListItem_no_bounds_check (sl : stringList) (i : Nat)
    (_h : sl.count ≤ i) :
    stringListItemC (some sl) i = CResult.ok (readSlot sl i) ∧
    stringListItemC (some sl) i ≠ CResult.assertFail ∧
    stringListItemC none i = CResult.assertFail := by
  refine ⟨rfl, ?_, rfl⟩
  intro hc
  exact CResult.noConfusion hc

/-- Witness for the amended C3 at index 7 of a one-element container. -/
theorem stringListItem_no_bounds_check_witness :
    (addAll stringListNew [some ['a']]).count ≤ 7 ∧
    (stringListItemC (some (addAll stringListNew [some ['a']])) 7 =
      CResult.ok (readSlot (addAll stringListNew [some ['a']]) 7) ∧
    stringListItemC (some (addAll stringListNew [some ['a']])) 7 ≠
      CResult.assertFail ∧
    stringListItemC none 7 = CResult.assertFail) :=
  ⟨by decide, stringListItem_no_bounds_check (addAll stringListNew [some ['a']]) 7 (by decide)⟩

/-- Counterexample to C3 as stated: reading index 5 of a one-element
container (count = 1 ≤ 5) does not trigger a fatal assertion — it returns
the NULL placeholder of the still-allocated slot. -/
theorem stringListItem_out_of_bounds_counterexample :
    (addAll stringListNew [some ['a']]).count ≤ 5 ∧
    stringListItemC (some (addAll stringListNew [some ['a']])) 5 =
      CResult.ok none ∧
    stringListItemC (some (addAll stringListNew [some ['a']])) 5 ≠
      CResult.assertFail := by
  decide

/-- Claim C4: after combine(A, B) the destination holds the original
elements of A followed by those of B in order; the source is consumed
(modelled by stringListCombine returning only the destination and the C
wrapper deleting the source); a NULL destination or source is a fatal
assertion. -/
theorem stringListCombine_spec (A B : stringList) (h : wf A) :
    items (stringListCombine A B) = items A ++ items B ∧
    wf (stringListCombine A B) ∧
    stringListCombineC (some A) (some B) = CResult.ok (stringListCombine A B) ∧
    (∀ b, stringListCombineC none b = CResult.assertFail) ∧
    (∀ a, stringListCombineC a none = CResult.assertFail) := by
  obtain ⟨w1, w2, w3⟩ := addAll_spec (items B) A h
  refine ⟨w3, w1, rfl, fun b => rfl, fun a => ?_⟩
  cases a <;> rfl

/-- Witness for C4: combining ["a"] with ["b"]. -/
theorem stringListCombine_spec_witness :
    wf (addAll stringListNew [some ['a']]) ∧
    items (stringListCombine (addAll stringListNew [some ['a']])
        (addAll stringListNew [some ['b']])) =
      items (addAll stringListNew [some ['a']]) ++
        items (addAll stringListNew [some ['b']]) := by
  refine ⟨by decide, ?_⟩
  exact (stringListCombine_spec (addAll stringListNew [some ['a']])
    (addAll stringListNew [some ['b']]) (by decide)).1

/-- Claim C5: for every openable file, the container holds, in file
order, exactly the lines that are non-empty after trailing-whitespace
stripping; the file "a\n\nb  \n" yields exactly ["a", "b"]. -/
theorem stringListNewFromFile_lines_spec :
    (∀ lines : List Str, ∃ sl, stringListNewFromFile (some lines) = some sl ∧
      items sl = lines.filterMap keepLine) ∧
    (stringListNewFromFile (some [['a'], [], ['b', ' ', ' ']])).map items =
      some [some ['a'], some ['b']] := by
  constructor
  · intro lines
    refine ⟨lines.foldl fromFileStep stringListNew, rfl, ?_⟩
    obtain ⟨_, w2⟩ := fromFileFold_spec lines stringListNew wf_stringListNew
    rw [w2]
    rfl
  · decide

/-- Claim C6: stringListNewFromFile returns an absent result iff the file
cannot be opened; whenever the open succeeds it returns a valid
(well-formed, possibly empty) container. -/
theorem stringListNewFromFile_open_spec :
    (∀ file : Option (List Str),
      stringListNewFromFile file = none ↔ file = none) ∧
    (∀ lines : List Str, ∃ sl,
      stringListNewFromFile (some lines) = some sl ∧ wf sl) := by
  constructor
  · intro file
    cases file with
    | none => exact ⟨fun _ => rfl, fun _ => rfl⟩
    | some lines =>
      constructor
      · intro hc
        cases hc
      · intro hc
        cases hc
  · intro lines
    exact ⟨_, rfl, (fromFileFold_spec lines stringListNew wf_stringListNew).1⟩

/-- Claim C7: count ≤ capacity holds in every reachable state and is
preserved by every operation; capacity changes only in stringListAdd,
growing by exactly 10 precisely when the append would exceed the current
capacity (count = max before the insert); removeLast, clear and
removeExtension never change capacity. -/
theorem stringList_capacity_invariant (sl other : stringList)
    (x : Option Str) (ext : Str) (ci : Bool) (h : wf sl) :
    wf stringListNew ∧
    wf (stringListAdd sl x) ∧
    (stringListAdd sl x).max =
      (if sl.count = sl.max then sl.max + 10 else sl.max) ∧
    wf (stringListRemoveLast sl) ∧
    (stringListRemoveLast sl).max = sl.max ∧
    wf (stringListClear sl) ∧
    (stringListClear sl).max = sl.max ∧
    wf (stringListRemoveExtension ci sl ext).2 ∧
    ((stringListRemoveExtension ci sl ext).2).max = sl.max ∧
    wf (stringListCombine sl other) := by
  refine ⟨wf_stringListNew, stringListAdd_wf sl x h, stringListAdd_max sl x h,
    stringListRemoveLast_wf sl h, stringListRemoveLast_max sl,
    stringListClear_wf sl h, stringListClear_max sl, ?_, ?_,
    (addAll_spec (items other) sl h).1⟩
  · cases hfi : List.findIdx? (extensionComparator ci ext) (items sl) with
    | none =>
      rw [removeExtension_not_found ci sl ext hfi]
      exact h
    | some w => exact (removeExtension_found ci sl ext w h hfi).2.2.2.1
  · cases hfi : List.findIdx? (extensionComparator ci ext) (items sl) with
    | none =>
      rw [removeExtension_not_found ci sl ext hfi]
    | some w => exact (removeExtension_found ci sl ext w h hfi).2.2.1

/-- Witness for C7 at the container ["a"]. -/
theorem stringList_capacity_invariant_witness :
    wf (addAll stringListNew [some ['a']]) ∧
    (wf stringListNew ∧
    wf (stringListAdd (addAll stringListNew [some ['a']]) (some ['z'])) ∧
    (stringListAdd (addAll stringListNew [some ['a']]) (some ['z'])).max =
      (if (addAll stringListNew [some ['a']]).count =
          (addAll stringListNew [some ['a']]).max
       then (addAll stringListNew [some ['a']]).max + 10
       else (addAll stringListNew [some ['a']]).max) ∧
    wf (stringListRemoveLast (addAll stringListNew [some ['a']])) ∧
    (stringListRemoveLast (addAll stringListNew [some ['a']])).max =
      (addAll stringListNew [some ['a']]).max ∧
    wf (stringListClear (addAll stringListNew [some ['a']])) ∧
    (stringListClear (addAll stringListNew [some ['a']])).max =
      (addAll stringListNew [some ['a']]).max ∧
    wf (stringListRemoveExtension false (addAll stringListNew [some ['a']]) ['a']).2 ∧
    ((stringListRemoveExtension false (addAll stringListNew [some ['a']]) ['a']).2).max =
      (addAll stringListNew [some ['a']]).max ∧
    wf (stringListCombine (addAll stringListNew [some ['a']]) stringListNew)) :=
  ⟨by decide, stringList_capacity_invariant (addAll stringListNew [some ['a']])
    stringListNew (some ['z']) ['a'] false (by decide)⟩

/-- Claim C8: add(x) followed by removeLast restores the original count
and leaves every previously stored element value unchanged; removeLast on
an empty container is a fatal assertion. -/
theorem stringListAdd_removeLast_inverse (sl : stringList) (x : Option Str)
    (h : wf sl) :
    stringListRemoveLastC (some (stringListAdd sl x)) =
      CResult.ok (stringListRemoveLast (stringListAdd sl x)) ∧
    (stringListRemoveLast (stringListAdd sl x)).count = sl.count ∧
    items (stringListRemoveLast (stringListAdd sl x)) = items sl ∧
    (sl.count = 0 → stringListRemoveLastC (some sl) = CResult.assertFail) := by
  have hac := stringListAdd_count sl x h
  obtain ⟨hc, hlt, hlen, hmax, hitems⟩ := ensureRoom_spec sl h
  refine ⟨?_, ?_, ?_, ?_⟩
  · rw [stringListRemoveLastC_some, if_pos (by omega)]
  · rw [stringListRemoveLast_count, hac]
    omega
  · unfold items
    rw [stringListRemoveLast_count, slots_stringListRemoveLast, hac]
    have hs : sl.count + 1 - 1 = sl.count := rfl
    rw [hs, take_set_of_le _ _ _ _ (le_refl sl.count)]
    have hsa : slots (stringListAdd sl x)
        = (slots (ensureRoom sl)).set (ensureRoom sl).count x := rfl
    rw [hsa, hc, take_set_of_le _ _ _ _ (le_refl sl.count)]
    unfold items at hitems
    rw [hc] at hitems
    exact hitems
  · intro h0
    rw [stringListRemoveLastC_some, if_neg (by omega)]

/-- Witness for C8 at the container ["a"] and the added value "z". -/
theorem stringListAdd_removeLast_inverse_witness :
    wf (addAll stringListNew [some ['a']]) ∧
    items (stringListRemoveLast
        (stringListAdd (addAll stringListNew [some ['a']]) (some ['z']))) =
      items (addAll stringListNew [some ['a']]) := by
  refine ⟨by decide, ?_⟩
  exact (stringListAdd_removeLast_inverse (addAll stringListNew [some ['a']])
    (some ['z']) (by decide)).2.2.1

/-- Claim C9: whenever removeExtension finds a match at index w, the
memmove copies count - w slots starting at w + 1, so its source index
range contains the index count itself — one slot past the occupied
prefix: total indexing of the occupied sequence at that index yields
nothing. -/
theorem removeExtension_memmove_reads_past_end (ci : Bool)
    (sl : stringList) (ext : Str) (h : wf sl)
    (hfound : (stringListRemoveExtension ci sl ext).1 = true) :
    ∃ w, List.findIdx? (extensionComparator ci ext) (items sl) = some w ∧
      w < sl.count ∧
      sl.count ∈ memmoveShiftSrc w sl.count ∧
      (items sl)[sl.count]? = none := by
  cases hfi : List.findIdx? (extensionComparator ci ext) (items sl) with
  | none =>
    rw [removeExtension_not_found ci sl ext hfi] at hfound
    simp at hfound
  | some w =>
    obtain ⟨f1, f2, f3, f4, f5, f6, f7⟩ := removeExtension_found ci sl ext w h hfi
    refine ⟨w, rfl, f7, ?_, ?_⟩
    · unfold memmoveShiftSrc
      rw [List.mem_map]
      refine ⟨sl.count - w - 1, ?_, by omega⟩
      rw [List.mem_range]
      omega
    · apply List.getElem?_eq_none
      unfold items
      rw [List.length_take]
      exact Nat.min_le_left _ _

/-- Witness for C9: removing "a" from the one-element container ["a"]
reads source slot 1 = count. -/
theorem removeExtension_memmove_reads_past_end_witness :
    wf (addAll stringListNew [some ['a']]) ∧
    (stringListRemoveExtension false (addAll stringListNew [some ['a']]) ['a']).1
      = true ∧
    ∃ w, List.findIdx? (extensionComparator false ['a'])
        (items (addAll stringListNew [some ['a']])) = some w ∧
      w < (addAll stringListNew [some ['a']]).count ∧
      (addAll stringListNew [some ['a']]).count ∈
        memmoveShiftSrc w (addAll stringListNew [some ['a']]).count ∧
      (items (addAll stringListNew [some ['a']]))[(addAll stringListNew
        [some ['a']]).count]? = none :=
  ⟨by decide, by decide, removeExtension_memmove_reads_past_end false
    (addAll stringListNew [some ['a']]) ['a'] (by decide) (by decide)⟩

/-- Claim C10: the combine loop terminates for distinct containers
(source.count + 1 iterations of fuel always suffice, for any destination
and source), but when the same non-empty container is both destination
and source, every stringListAdd grows the loop bound, so no amount of
fuel makes the aliased loop terminate. -/
theorem stringListCombine_termination :
    (∀ current source : stringList,
      (combineLoop (source.count + 1) 0 current source).isSome = true) ∧
    (∀ (fuel : Nat) (sl : stringList), wf sl → 0 < sl.count →
      combineAliasedLoop fuel 0 sl = none) := by
  constructor
  · intro current source
    exact combineLoop_isSome source.count 0 current source (by omega)
  · intro fuel sl h1 h2
    exact combineAliasedLoop_none fuel 0 sl h1 h2

/-- Witness for C10 at the one-element container ["a"]. -/
theorem stringListCombine_termination_witness :
    (combineLoop ((addAll stringListNew [some ['a']]).count + 1) 0
      stringListNew (addAll stringListNew [some ['a']])).isSome = true ∧
    wf (addAll stringListNew [some ['a']]) ∧
    0 < (addAll stringListNew [some ['a']]).count ∧
    combineAliasedLoop 3 0 (addAll stringListNew [some ['a']]) = none :=
  ⟨stringListCombine_termination.1 stringListNew (addAll stringListNew [some ['a']]),
    by decide, by decide,
    stringListCombine_termination.2 3 (addAll stringListNew [some ['a']])
      (by decide) (by decide)⟩

end StrList
